import Mathlib

/-!
Verification development for the living-dex tracker
(src/living_dex_tracker_pokeball_dex_react.jsx).

The JavaScript source is shallowly embedded below.  Modelling conventions:

* JS strings are Lean `String`s; `localeCompare` on the display labels and the
  default `Array.prototype.sort()` string comparison are both modelled as the
  lexicographic order on `String` (`localeCompare` returns `0` exactly on equal
  strings in every locale, which is the only fact the tie cases rely on).
* `JSON.parse`/`JSON.stringify` are modelled at the level of JSON values
  (an inductive `Json`); stringify-then-parse is the identity there.
* JS `Set` objects are modelled by their insertion-ordered, duplicate-free
  element lists (`new Set(arr)` keeps first occurrences), except in the
  `toggleCaught` claim, where only membership is observable (`has`) and the
  set is modelled as a `Finset Int`.
* Optional-chaining accesses (`row.location_area?.name`) become `Option`
  fields; the JS falsiness check `!v` on a string is `none` or `""`.
* `Char.toUpper`/`Char.toLower` model the ASCII fragment of the JS case
  conversions, and the `\s` character class is modelled by the ASCII
  whitespace characters; every concrete input in this development is ASCII.
* React effect lifecycles (`useEffect` with an `alive` flag and a cleanup)
  are modelled by epoch counters: each effect (re-)run gets a fresh epoch,
  and a pending request is "alive" exactly when its epoch is the current one.
-/

namespace LivingDex

/-! ### Small utils: `titleCase`, version labels -/

/-- The characters matched by the JS regex class `[-\s_]` (ASCII fragment). -/
def isDelimJS (c : Char) : Bool :=
  c = '-' || c = '_' || c = ' ' || c = '\t' || c = '\n' || c = '\r' || c = '\x0b' || c = '\x0c'

/-- `w.charAt(0).toUpperCase() + w.slice(1)`. -/
def capitalizeJS (w : String) : String :=
  match w.data with
  | [] => ""
  | c :: cs => String.mk (c.toUpper :: cs)

/-- Split a character list at every delimiter character, keeping empty pieces
(the splitting underlying `s.split(/[-\s_]+/)`: splitting at single characters
and then dropping empty pieces equals splitting at runs). -/
def splitChars (p : Char → Bool) : List Char → List (List Char)
  | [] => [[]]
  | c :: cs =>
    if p c then [] :: splitChars p cs
    else
      match splitChars p cs with
      | [] => [[c]]
      | w :: ws => (c :: w) :: ws

/-- `titleCase` from the source: split on runs of `[-\s_]+`, drop empty pieces,
capitalize each word, join with single spaces. -/
def titleCase (s : String) : String :=
  String.intercalate " "
    ((((splitChars isDelimJS s.data).map String.mk).filter (fun w => w ≠ "")).map capitalizeJS)

/-- The curated `VERSION_LABELS` table from the source. -/
def VERSION_LABELS : String → Option String
  | "red" => some "Red"
  | "blue" => some "Blue"
  | "yellow" => some "Yellow"
  | "gold" => some "Gold"
  | "silver" => some "Silver"
  | "crystal" => some "Crystal"
  | "ruby" => some "Ruby"
  | "sapphire" => some "Sapphire"
  | "emerald" => some "Emerald"
  | "firered" => some "FireRed"
  | "leafgreen" => some "LeafGreen"
  | "diamond" => some "Diamond"
  | "pearl" => some "Pearl"
  | "platinum" => some "Platinum"
  | "heartgold" => some "HeartGold"
  | "soulsilver" => some "SoulSilver"
  | "black" => some "Black"
  | "white" => some "White"
  | "black-2" => some "Black 2"
  | "white-2" => some "White 2"
  | "x" => some "X"
  | "y" => some "Y"
  | "omega-ruby" => some "Omega Ruby"
  | "alpha-sapphire" => some "Alpha Sapphire"
  | "sun" => some "Sun"
  | "moon" => some "Moon"
  | "ultra-sun" => some "Ultra Sun"
  | "ultra-moon" => some "Ultra Moon"
  | "lets-go-pikachu" => some "Let’s Go Pikachu"
  | "lets-go-eevee" => some "Let’s Go Eevee"
  | "sword" => some "Sword"
  | "shield" => some "Shield"
  | "brilliant-diamond" => some "Brilliant Diamond"
  | "shining-pearl" => some "Shining Pearl"
  | "legends-arceus" => some "Legends: Arceus"
  | "scarlet" => some "Scarlet"
  | "violet" => some "Violet"
  | _ => none

/-- `versionLabel = (v) => VERSION_LABELS[v] || titleCase(v)` (no curated label
is the empty string, so `||` is `getD`). -/
def versionLabel (v : String) : String :=
  (VERSION_LABELS v).getD (titleCase v)

/-! ### Whitespace normalization used on flavor text -/

/-- ASCII fragment of the JS regex class `\s`. -/
def isSpaceJS (c : Char) : Bool :=
  c = ' ' || c = '\t' || c = '\n' || c = '\r' || c = '\x0b' || c = '\x0c'

/-- `.replace(/\s+/g, " ")` on a character list: each maximal whitespace run
becomes a single space. -/
def collapseWS : List Char → List Char
  | [] => []
  | [c] => [if isSpaceJS c then ' ' else c]
  | c :: d :: cs =>
    if isSpaceJS c && isSpaceJS d then collapseWS (d :: cs)
    else (if isSpaceJS c then ' ' else c) :: collapseWS (d :: cs)

/-- `String.prototype.trim()` (ASCII whitespace). -/
def jsTrim (s : String) : String :=
  String.mk (((s.data.dropWhile isSpaceJS).reverse.dropWhile isSpaceJS).reverse)

/-- `t.replace(/\s+/g, " ").trim()` as applied to flavor texts. -/
def normalizeWS (s : String) : String :=
  jsTrim (String.mk (collapseWS s.data))

/-! ### `bestEnglishFlavor` -/

/-- One element of `species.flavor_text_entries`: `language?.name`,
`version?.name`, and the text. -/
structure FlavorEntry where
  language : Option String
  version : Option String
  flavor_text : String
deriving DecidableEq

/-- The in-source preference list (most-recent-first). -/
def preferredVersions : List String :=
  ["scarlet", "violet", "sword", "shield", "legends-arceus", "brilliant-diamond", "shining-pearl"]

/-- The `for (const p of preferred)` loop of `bestEnglishFlavor`: for each
preferred version in order, `en.find(...)`; on the first hit return its
normalized text. -/
def scanPreferred (en : List FlavorEntry) : List String → Option String
  | [] => none
  | p :: ps =>
    match en.find? (fun e => e.version = some p) with
    | some hit => some (normalizeWS hit.flavor_text)
    | none => scanPreferred en ps

/-- `bestEnglishFlavor` from the source: filter to English entries, empty
string if none; otherwise scan the preference list; fall back to the last
English entry, whitespace-normalized. -/
def bestEnglishFlavor (entries : List FlavorEntry) : String :=
  let en := entries.filter (fun e => e.language = some "en")
  if en.isEmpty then ""
  else
    match scanPreferred en preferredVersions with
    | some t => t
    | none =>
      match en.getLast? with
      | some e => normalizeWS e.flavor_text
      | none => ""

/-- `selectDescription`, written from the words of spec §4.3 (for comparison
with `bestEnglishFlavor`): filter to `languageCode == "en"`; if empty, the
empty string; otherwise the first preferred version with a matching candidate
gives that candidate's normalized text; otherwise the last English entry,
post-processed the same way. -/
def selectDescriptionSpec (candidates : List FlavorEntry) : String :=
  let en := candidates.filter (fun e => e.language = some "en")
  if en = [] then ""
  else
    match preferredVersions.findSome?
        (fun p => (en.find? (fun e => e.version = some p)).map
          (fun hit => normalizeWS hit.flavor_text)) with
    | some t => t
    | none =>
      match en.getLast? with
      | some e => normalizeWS e.flavor_text
      | none => ""

/-! ### Stable sorting (JS `Array.prototype.sort` with a consistent comparator)

`sortLe le` is an insertion sort that keeps the original relative order of
elements the comparator ties, exactly as the (ES2019) stable `Array.sort`. -/

/-- Insert `a` (originally positioned before every element of the list) in
front of the first element `b` with `le a b`; ties keep `a` first. -/
def insertLe (le : α → α → Bool) (a : α) : List α → List α
  | [] => [a]
  | b :: bs => if le a b then a :: b :: bs else b :: insertLe le a bs

/-- Stable sort by the boolean comparator `le`. -/
def sortLe (le : α → α → Bool) : List α → List α
  | [] => []
  | a :: as => insertLe le a (sortLe le as)

/-- Lexicographic `≤` on character lists (the string comparison of both the
default `Array.sort()` and, in our modelling, `localeCompare`: code-point
order; on equal strings every locale's `localeCompare` is `0`, which is the
only fact the tie cases below rely on). -/
def charListLe : List Char → List Char → Bool
  | [], _ => true
  | _ :: _, [] => false
  | a :: as, b :: bs => if a = b then charListLe as bs else decide (a < b)

/-- Lexicographic `≤` on strings. -/
def strLe (a b : String) : Bool :=
  charListLe a.data b.data

/-- Comparator of `versions.sort((a, b) => versionLabel(a).localeCompare(versionLabel(b)))`:
`le a b` iff the comparator is `≤ 0`. -/
def verLe (a b : String) : Bool :=
  strLe (versionLabel a) (versionLabel b)

/-- Comparator of the default string `.sort()` on location names. -/
def locLe (a b : String) : Bool :=
  strLe a b

/-! ### `normalizeEncounterData` -/

/-- One element of a row's `version_details`: `version?.name`. -/
structure VersionDetail where
  version : Option String
deriving DecidableEq

/-- One encounter row: `location_area?.name` and `version_details`. -/
structure EncounterRow where
  location_area : Option String
  version_details : List VersionDetail
deriving DecidableEq

/-- The result shape `{ versions, byVersion }`; the JS object `byVersion` is
modelled as an association list whose keys appear in `versions` order. -/
structure EncounterMap where
  versions : List String
  byVersion : List (String × List String)
deriving DecidableEq

/-- `if (!byVersion[v]) byVersion[v] = new Set(); byVersion[v].add(loc)` on the
insertion-ordered association-list model of the JS object of JS sets. -/
def addLoc : List (String × List String) → String → String → List (String × List String)
  | [], v, l => [(v, [l])]
  | (k, locs) :: rest, v, l =>
    if k = v then (k, if l ∈ locs then locs else locs ++ [l]) :: rest
    else (k, locs) :: addLoc rest v l

/-- The inner `for (const vd of row.version_details)` loop of one row
(`continue` on a missing or empty version or location name). -/
def stepRow (m : List (String × List String)) (row : EncounterRow) : List (String × List String) :=
  row.version_details.foldl
    (fun m2 vd =>
      match vd.version, row.location_area with
      | some v, some l => if v = "" || l = "" then m2 else addLoc m2 v l
      | _, _ => m2)
    m

/-- The whole `for (const row of encArr)` loop building `byVersion`. -/
def buildByVersion (rows : List EncounterRow) : List (String × List String) :=
  rows.foldl stepRow []

/-- `byVersion[v]` (the keys looked up always exist; absent keys give `[]`). -/
def lookupLocs (v : String) : List (String × List String) → List String
  | [] => []
  | (k, locs) :: rest => if k = v then locs else lookupLocs v rest

/-- `normalizeEncounterData` from the source: build `byVersion`, sort its keys
by display label (stably, keys in insertion order), then rebuild `normalized`
with each version's location set as a sorted array. -/
def normalizeEncounterData (rows : List EncounterRow) : EncounterMap :=
  let byVersion := buildByVersion rows
  let versions := sortLe verLe (byVersion.map Prod.fst)
  { versions := versions
    byVersion := versions.map (fun v => (v, sortLe locLe (lookupLocs v byVersion))) }

/-- The `(versionName, locationName)` pairs a row contributes, in the order
the nested loops of `normalizeEncounterData` visit them. -/
def rowPairs (row : EncounterRow) : List (String × String) :=
  row.version_details.filterMap
    (fun vd =>
      match vd.version, row.location_area with
      | some v, some l => if v = "" || l = "" then none else some (v, l)
      | _, _ => none)

/-- All `(versionName, locationName)` pairs of a row sequence, in visit order. -/
def pairsOf (rows : List EncounterRow) : List (String × String) :=
  rows.flatMap rowPairs

/-- `addLoc` folded over an explicit pair list (the flattened loop). -/
def buildFrom (acc : List (String × List String)) (ps : List (String × String)) :
    List (String × List String) :=
  ps.foldl (fun m p => addLoc m p.1 p.2) acc

/-- The version names occurring (with a usable location) in a row sequence. -/
def versionNamesOf (rows : List EncounterRow) : List String :=
  (pairsOf rows).map Prod.fst

/-! ### Persisted caught set: `loadCaught` / `saveCaught` / `toggleCaught` -/

/-- JSON values (`JSON.parse` output / `JSON.stringify` input).  Equality of
values is structural; the JS `Set` reference-equality subtlety for object
elements does not arise for the integer payloads these claims concern. -/
inductive Json where
  | null : Json
  | jsonBool : Bool → Json
  | num : Int → Json
  | str : String → Json
  | arr : List Json → Json
  | obj : List (String × Json) → Json

mutual

def Json.deq : (a b : Json) → Decidable (a = b)
  | .null, .null => isTrue rfl
  | .jsonBool a, .jsonBool b =>
    match decEq a b with
    | isTrue h => isTrue (by rw [h])
    | isFalse h => isFalse (by intro hh; cases hh; exact h rfl)
  | .num a, .num b =>
    match decEq a b with
    | isTrue h => isTrue (by rw [h])
    | isFalse h => isFalse (by intro hh; cases hh; exact h rfl)
  | .str a, .str b =>
    match decEq a b with
    | isTrue h => isTrue (by rw [h])
    | isFalse h => isFalse (by intro hh; cases hh; exact h rfl)
  | .arr xs, .arr ys =>
    match Json.deqList xs ys with
    | isTrue h => isTrue (by rw [h])
    | isFalse h => isFalse (by intro hh; cases hh; exact h rfl)
  | .obj xs, .obj ys =>
    match Json.deqFields xs ys with
    | isTrue h => isTrue (by rw [h])
    | isFalse h => isFalse (by intro hh; cases hh; exact h rfl)
  | .null, .jsonBool _ => isFalse (by intro h; cases h)
  | .null, .num _ => isFalse (by intro h; cases h)
  | .null, .str _ => isFalse (by intro h; cases h)
  | .null, .arr _ => isFalse (by intro h; cases h)
  | .null, .obj _ => isFalse (by intro h; cases h)
  | .jsonBool _, .null => isFalse (by intro h; cases h)
  | .jsonBool _, .num _ => isFalse (by intro h; cases h)
  | .jsonBool _, .str _ => isFalse (by intro h; cases h)
  | .jsonBool _, .arr _ => isFalse (by intro h; cases h)
  | .jsonBool _, .obj _ => isFalse (by intro h; cases h)
  | .num _, .null => isFalse (by intro h; cases h)
  | .num _, .jsonBool _ => isFalse (by intro h; cases h)
  | .num _, .str _ => isFalse (by intro h; cases h)
  | .num _, .arr _ => isFalse (by intro h; cases h)
  | .num _, .obj _ => isFalse (by intro h; cases h)
  | .str _, .null => isFalse (by intro h; cases h)
  | .str _, .jsonBool _ => isFalse (by intro h; cases h)
  | .str _, .num _ => isFalse (by intro h; cases h)
  | .str _, .arr _ => isFalse (by intro h; cases h)
  | .str _, .obj _ => isFalse (by intro h; cases h)
  | .arr _, .null => isFalse (by intro h; cases h)
  | .arr _, .jsonBool _ => isFalse (by intro h; cases h)
  | .arr _, .num _ => isFalse (by intro h; cases h)
  | .arr _, .str _ => isFalse (by intro h; cases h)
  | .arr _, .obj _ => isFalse (by intro h; cases h)
  | .obj _, .null => isFalse (by intro h; cases h)
  | .obj _, .jsonBool _ => isFalse (by intro h; cases h)
  | .obj _, .num _ => isFalse (by intro h; cases h)
  | .obj _, .str _ => isFalse (by intro h; cases h)
  | .obj _, .arr _ => isFalse (by intro h; cases h)

def Json.deqList : (xs ys : List Json) → Decidable (xs = ys)
  | [], [] => isTrue rfl
  | x :: xs, y :: ys =>
    match Json.deq x y, Json.deqList xs ys with
    | isTrue h1, isTrue h2 => isTrue (by rw [h1, h2])
    | isFalse h1, _ => isFalse (by intro hh; cases hh; exact h1 rfl)
    | _, isFalse h2 => isFalse (by intro hh; cases hh; exact h2 rfl)
  | [], _ :: _ => isFalse (by intro h; cases h)
  | _ :: _, [] => isFalse (by intro h; cases h)

def Json.deqFields : (xs ys : List (String × Json)) → Decidable (xs = ys)
  | [], [] => isTrue rfl
  | (k1, v1) :: xs, (k2, v2) :: ys =>
    match decEq k1 k2, Json.deq v1 v2, Json.deqFields xs ys with
    | isTrue h0, isTrue h1, isTrue h2 => isTrue (by rw [h0, h1, h2])
    | isFalse h0, _, _ => isFalse (by intro hh; cases hh; exact h0 rfl)
    | _, isFalse h1, _ => isFalse (by intro hh; cases hh; exact h1 rfl)
    | _, _, isFalse h2 => isFalse (by intro hh; cases hh; exact h2 rfl)
  | [], _ :: _ => isFalse (by intro h; cases h)
  | _ :: _, [] => isFalse (by intro h; cases h)

end

instance : DecidableEq Json := Json.deq

/-- The observable states of `localStorage` at the single key `LS_KEY`:
the key can be absent, hold the empty string (also falsy in the source's
`if (!raw)` check), hold a string `JSON.parse` rejects, hold a string that
parses to the JSON value `j`, or the read itself can throw. -/
inductive StorageState where
  | absent : StorageState
  | emptyRaw : StorageState
  | malformed : StorageState
  | stored : Json → StorageState
  | readError : StorageState
deriving DecidableEq

/-- `new Set(arr)`: first-occurrence deduplication, insertion order kept. -/
def jsSetOfList (xs : List Json) : List Json :=
  xs.foldl (fun acc x => if x ∈ acc then acc else acc ++ [x]) []

/-- `loadCaught` from the source: any throw is caught and yields the empty
set; a falsy raw value yields the empty set; a parsed non-array yields
`new Set([])`; a parsed array `arr` yields `new Set(arr)`. -/
def loadCaught : StorageState → List Json
  | .absent => []
  | .emptyRaw => []
  | .malformed => []
  | .readError => []
  | .stored j =>
    match j with
    | .arr xs => jsSetOfList xs
    | _ => jsSetOfList []

/-- `saveCaught` from the source: on success the key now holds
`JSON.stringify(Array.from(set))` (modelled at the JSON-value level); a write
failure is swallowed and the prior stored state is untouched. -/
def saveCaught (set : List Json) (prev : StorageState) (writeOk : Bool) : StorageState :=
  if writeOk then .stored (.arr set) else prev

/-- The set contents a finite set of integers is saved with. -/
def intSetToJson (S : List Int) : List Json :=
  S.map Json.num

/-- The membership update at the heart of `toggleCaught`:
`const next = new Set(prev); if (next.has(id)) next.delete(id); else next.add(id);`.
Only membership of the JS set is ever observed (`caught.has`), so the set is
modelled as a `Finset Int`. -/
def toggleCaught (prev : Finset Int) (id : Int) : Finset Int :=
  if id ∈ prev then prev.erase id else insert id prev

/-! ### `ListView` filtering -/

/-- The fields of a list item the filter reads. -/
structure ListItem where
  id : Nat
  name : String
deriving DecidableEq

/-- The list filter mode (`"all" | "missing" | "caught"`). -/
inductive FilterMode where
  | all : FilterMode
  | missing : FilterMode
  | caught : FilterMode
deriving DecidableEq

/-- `String.prototype.toLowerCase()` (ASCII fragment). -/
def jsToLower (s : String) : String :=
  String.mk (s.data.map Char.toLower)

/-- `sub` is a prefix of `l` (character lists). -/
def leadsChars : List Char → List Char → Bool
  | [], _ => true
  | _ :: _, [] => false
  | a :: as, b :: bs => a = b && leadsChars as bs

/-- `sub` occurs contiguously in `l`. -/
def hasSubChars (sub : List Char) : List Char → Bool
  | [] => sub.isEmpty
  | c :: rest => leadsChars sub (c :: rest) || hasSubChars sub rest

/-- `s.includes(search)`. -/
def strIncludes (s search : String) : Bool :=
  hasSubChars search.data s.data

/-- The filtering computation of `ListView` (its `filtered` memo): lowercase
and trim the query; when non-empty keep items whose name contains it or whose
decimal id string contains it; then apply the mode filter. -/
def filterList (items : List ListItem) (q : String) (mode : FilterMode)
    (caughtSet : List Nat) : List ListItem :=
  let query := jsToLower (jsTrim q)
  (items.filter
      (fun p =>
        if query = "" then true
        else strIncludes p.name query || strIncludes (toString p.id) query)).filter
    (fun p =>
      let isCaught := decide (p.id ∈ caughtSet)
      match mode with
      | .all => true
      | .caught => isCaught
      | .missing => !isCaught)

/-- Case-insensitive substring matching, the relation the spec claims the
query predicate uses on names. -/
def caseInsensitiveMatch (name q : String) : Bool :=
  strIncludes (jsToLower name) (jsToLower q)

/-- The query predicate the code actually applies (spec-level restatement,
for the corrected claim): the effective query is empty, or is a substring of
the name taken verbatim, or of the decimal id string. -/
def queryPasses (q : String) (p : ListItem) : Prop :=
  jsToLower (jsTrim q) = "" ∨
    strIncludes p.name (jsToLower (jsTrim q)) = true ∨
    strIncludes (toString p.id) (jsToLower (jsTrim q)) = true

/-- The mode predicate (spec-level restatement). -/
def modePasses (mode : FilterMode) (caughtSet : List Nat) (p : ListItem) : Prop :=
  match mode with
  | .all => True
  | .caught => p.id ∈ caughtSet
  | .missing => p.id ∉ caughtSet

instance (q : String) (p : ListItem) : Decidable (queryPasses q p) := by
  unfold queryPasses; infer_instance

instance (mode : FilterMode) (caughtSet : List Nat) (p : ListItem) :
    Decidable (modePasses mode caughtSet p) := by
  cases mode <;> (unfold modePasses; infer_instance)

/-! ### `DexSidePanel` encounter effect (claim C2)

The effect keyed on `pokemon.id` resets the panel, fetches, and guards every
continuation with the `alive` flag of its own run; the cleanup (run on
selection change or unmount) clears the flag.  Epochs model effect runs: a
continuation fires only if its epoch is still current.  `displayed` carries,
next to the encounter map held in `enc`, the id the map was computed for, so
the correspondence property can be stated. -/

structure PanelState where
  epoch : Nat
  currentId : Nat
  pending : List (Nat × Nat)
  displayed : Option (Nat × EncounterMap)
deriving DecidableEq

inductive PanelEvent where
  | select : Nat → PanelEvent
  | encResolve : Nat → Nat → List EncounterRow → PanelEvent
  | encFail : Nat → Nat → PanelEvent
deriving DecidableEq

/-- Panel state after the mount-time effect run for the initially selected
species `id0`: its encounter fetch is in flight, nothing displayed yet. -/
def panelInit (id0 : Nat) : PanelState :=
  { epoch := 0, currentId := id0, pending := [(0, id0)], displayed := none }

/-- One transition of the panel.

`select id`: if the id is unchanged the effect does not re-run (unchanged
dependency array); otherwise the old run's cleanup clears its `alive` flag
(epoch bump), the state resets (`setEnc(null)`), and a fresh encounter fetch
for `id` is issued.

`encResolve e id rows`: the continuation of the fetch issued in epoch `e` for
species `id`; if its flag is stale (`e ≠ epoch`) it returns without touching
state, else it stores `normalizeEncounterData rows`.

`encFail e id`: same guard; an alive failure stores the empty map. -/
def panelStep (s : PanelState) (ev : PanelEvent) : PanelState :=
  match ev with
  | .select id =>
    if id = s.currentId then s
    else
      { epoch := s.epoch + 1, currentId := id,
        pending := (s.epoch + 1, id) :: s.pending, displayed := none }
  | .encResolve e id rows =>
    if (e, id) ∈ s.pending then
      { s with
        pending := s.pending.erase (e, id),
        displayed := if e = s.epoch then some (id, normalizeEncounterData rows) else s.displayed }
    else s
  | .encFail e id =>
    if (e, id) ∈ s.pending then
      { s with
        pending := s.pending.erase (e, id),
        displayed := if e = s.epoch then some (id, ⟨[], []⟩) else s.displayed }
    else s

/-- Run the panel from the mount state through a list of events. -/
def panelRun (id0 : Nat) (evs : List PanelEvent) : PanelState :=
  evs.foldl panelStep (panelInit id0)

/-- The invariant maintained by `panelStep`. -/
def panelInv (s : PanelState) : Prop :=
  (∀ p ∈ s.pending, p.1 ≤ s.epoch) ∧
    (∀ p ∈ s.pending, p.1 = s.epoch → p.2 = s.currentId) ∧
    (∀ i m, s.displayed = some (i, m) → i = s.currentId)

/-! ### `App` detail-enrichment effect (claim C9)

The effect keyed on `[items, selectedIndex]` fetches detail for the selected
stub; its continuation is guarded by `if (!alive) return` and the cleanup
(run whenever `items` or `selectedIndex` changes) clears the flag.  Epochs
model effect runs exactly as for the panel. -/

structure DexRecord where
  id : Nat
  name : String
  types : Option (List String)
deriving DecidableEq

structure AppState where
  items : List DexRecord
  selectedIndex : Nat
  epoch : Nat
  pending : List (Nat × Nat × Nat)
deriving DecidableEq

inductive AppEvent where
  | select : Nat → AppEvent
  | detailResolve : Nat → Nat → Nat → List String → AppEvent
  | detailFail : Nat → Nat → Nat → AppEvent
deriving DecidableEq

/-- Replace the record at position `i` (out-of-range leaves the list as-is). -/
def updateAt (l : List DexRecord) (i : Nat) (f : DexRecord → DexRecord) : List DexRecord :=
  match l, i with
  | [], _ => []
  | r :: rs, 0 => f r :: rs
  | r :: rs, n + 1 => r :: updateAt rs n f

/-- One run of the detail effect: the previous run's flag is dead (epoch
bump); if the selected record exists and is still a stub, a detail fetch
tagged with the fresh epoch, the selected position and the record id goes out. -/
def runDetailEffect (s : AppState) : AppState :=
  let e := s.epoch + 1
  match s.items.get? s.selectedIndex with
  | some r =>
    if r.types = none then
      { s with epoch := e, pending := (e, s.selectedIndex, r.id) :: s.pending }
    else { s with epoch := e }
  | none => { s with epoch := e }

/-- App state after the bulk list load populates `items` and the effect runs
for the initial selection (position 0). -/
def appInit (stubs : List DexRecord) : AppState :=
  runDetailEffect { items := stubs, selectedIndex := 0, epoch := 0, pending := [] }

/-- One transition of the enrichment machine.

`select i`: an unchanged index leaves the dependencies unchanged (no effect
re-run); a changed one re-renders and re-runs the effect.

`detailResolve e idx id ts`: the continuation of the fetch issued in epoch
`e`; stale (`e ≠ epoch`) continuations return before `setItems`, so no record
changes; an alive one merges the fetched `types` into the record at the
closure's selected position `idx`, and the `items` change re-runs the effect.

`detailFail`: the catch block ignores the error either way. -/
def appStep (s : AppState) (ev : AppEvent) : AppState :=
  match ev with
  | .select i =>
    if i = s.selectedIndex then s
    else runDetailEffect { s with selectedIndex := i }
  | .detailResolve e idx id ts =>
    if (e, idx, id) ∈ s.pending then
      let s1 : AppState := { s with pending := s.pending.erase (e, idx, id) }
      if e = s.epoch then
        runDetailEffect
          { s1 with items := updateAt s1.items idx (fun r => { r with types := some ts }) }
      else s1
    else s
  | .detailFail e idx id =>
    if (e, idx, id) ∈ s.pending then { s with pending := s.pending.erase (e, idx, id) }
    else s

/-- Run the app machine from the post-load state through a list of events. -/
def appRun (stubs : List DexRecord) (evs : List AppEvent) : AppState :=
  evs.foldl appStep (appInit stubs)

/-! ## Helper lemmas -/

theorem foldl_dedup_of_nodup :
    ∀ (xs acc : List Json), (acc ++ xs).Nodup →
      xs.foldl (fun acc x => if x ∈ acc then acc else acc ++ [x]) acc = acc ++ xs := by
  intro xs
  induction xs with
  | nil => intro acc _; simp
  | cons x xs ih =>
    intro acc h
    have hx : x ∉ acc := by
      intro hmem
      exact (List.disjoint_of_nodup_append h) hmem (List.mem_cons_self x xs)
    have h' : ((acc ++ [x]) ++ xs).Nodup := by
      simpa [List.append_assoc] using h
    simp only [List.foldl_cons, if_neg hx]
    rw [ih (acc ++ [x]) h']
    simp

theorem jsSetOfList_of_nodup {xs : List Json} (h : xs.Nodup) : jsSetOfList xs = xs := by
  have := foldl_dedup_of_nodup xs [] (by simpa using h)
  simpa [jsSetOfList] using this

/-! ## Claim C5 -/

/-- Claim C5: `load()` never fails and never propagates an error: on an absent
key (or an empty stored string), on a stored value that fails to parse as
JSON, and on a storage read that throws, `loadCaught` returns the empty set. -/
theorem load_failsoft :
    loadCaught .absent = [] ∧ loadCaught .emptyRaw = [] ∧
      loadCaught .malformed = [] ∧ loadCaught .readError = [] :=
  ⟨rfl, rfl, rfl, rfl⟩

/-! ## Claim C10 -/

/-- Claim C10: when the stored value is well-formed JSON that is not an array
(an object, number, string, boolean or null), `loadCaught` returns the empty
set, exactly as for absent or corrupted storage. -/
theorem load_nonarray_empty (j : Json) (h : ∀ xs, j ≠ Json.arr xs) :
    loadCaught (.stored j) = [] := by
  cases j with
  | arr xs => exact absurd rfl (h xs)
  | null => rfl
  | jsonBool b => rfl
  | num n => rfl
  | str s => rfl
  | obj fields => rfl

/-- Witness for C10 at a concrete stored JSON object. -/
theorem load_nonarray_empty_witness :
    loadCaught (.stored (.obj [("caught", Json.num 1)])) = [] :=
  load_nonarray_empty (.obj [("caught", Json.num 1)]) (fun _ h => Json.noConfusion h)

/-! ## Claim C4 -/

/-- Claim C4: save/load round-trip.  For every finite set `S` of positive
integers (a duplicate-free list of its elements in JS-set insertion order),
`loadCaught` after a succeeding `saveCaught` of `S` returns a set equal to
`S` — here literally the same element list. -/
theorem save_load_roundtrip (S : List Int) (hnd : S.Nodup) (_hpos : ∀ x ∈ S, 0 < x)
    (prev : StorageState) :
    loadCaught (saveCaught (intSetToJson S) prev true) = intSetToJson S := by
  have hinj : Function.Injective Json.num := by
    intro a b h
    cases h
    rfl
  have : (intSetToJson S).Nodup := hnd.map hinj
  simp only [saveCaught, if_pos rfl, loadCaught, intSetToJson]
  exact jsSetOfList_of_nodup this

/-- Witness for C4 at the concrete set `{1, 2, 3}` over empty prior storage. -/
theorem save_load_roundtrip_witness :
    loadCaught (saveCaught (intSetToJson [1, 2, 3]) .absent true) = intSetToJson [1, 2, 3] :=
  save_load_roundtrip [1, 2, 3] (by decide) (by decide) .absent

/-! ## Claim C3 -/

/-- Claim C3: `toggle` is pure and flips exactly the membership of `i`:
`i ∈ toggle S i ↔ i ∉ S`, every other element's membership is unchanged, and
consequently `toggle (toggle S i) i = S`. -/
theorem toggle_flip_spec (s : Finset Int) (i : Int) :
    (i ∈ toggleCaught s i ↔ i ∉ s) ∧
      (∀ j, j ≠ i → (j ∈ toggleCaught s i ↔ j ∈ s)) ∧
      toggleCaught (toggleCaught s i) i = s := by
  by_cases h : i ∈ s
  · refine ⟨?_, ?_, ?_⟩
    · simp [toggleCaught, h]
    · intro j hj
      simp [toggleCaught, h, Finset.mem_erase, hj]
    · simp [toggleCaught, h, Finset.insert_erase h]
  · refine ⟨?_, ?_, ?_⟩
    · simp [toggleCaught, h]
    · intro j hj
      simp [toggleCaught, h, Finset.mem_insert, hj]
    · simp [toggleCaught, h, Finset.erase_insert h]

/-- Witness for C3: membership of an element other than the toggled one is
unchanged, at `S = {1, 2}`, `i = 3`, `j = 1`. -/
theorem toggle_flip_spec_witness :
    (1 : Int) ∈ toggleCaught ({1, 2} : Finset Int) 3 ↔ (1 : Int) ∈ ({1, 2} : Finset Int) :=
  (toggle_flip_spec {1, 2} 3).2.1 1 (by decide)

/-! ## Claim C6 -/

theorem scanPreferred_eq_findSome (en : List FlavorEntry) :
    ∀ ps : List String,
      scanPreferred en ps =
        ps.findSome? (fun p => (en.find? (fun e => e.version = some p)).map
          (fun hit => normalizeWS hit.flavor_text)) := by
  intro ps
  induction ps with
  | nil => rfl
  | cons p ps ih =>
    rw [List.findSome?_cons]
    cases h : en.find? (fun e => e.version = some p) with
    | none => simp [scanPreferred, h, ih]
    | some hit => simp [scanPreferred, h]

/-- Claim C6: `selectDescription` is a total deterministic function and
behaves as the spec describes it: `bestEnglishFlavor` coincides with the
function written from the spec's words (filter to English; empty string when
that is empty; first preferred version with a matching English candidate,
whitespace-normalized; otherwise the last English entry, post-processed the
same way), and on a candidate list with no English entries it returns the
empty string. -/
theorem bestEnglishFlavor_meets_spec (cands : List FlavorEntry) :
    bestEnglishFlavor cands = selectDescriptionSpec cands ∧
      (cands.filter (fun e => e.language = some "en") = [] → bestEnglishFlavor cands = "") := by
  constructor
  · by_cases he : cands.filter (fun e => e.language = some "en") = []
    · simp [bestEnglishFlavor, selectDescriptionSpec, he]
    · simp [bestEnglishFlavor, selectDescriptionSpec, he, scanPreferred_eq_findSome,
        List.isEmpty_iff]
  · intro he
    unfold bestEnglishFlavor
    simp [he]

/-- Witness for C6: a list whose only entry is French yields the empty
string. -/
theorem bestEnglishFlavor_meets_spec_witness :
    bestEnglishFlavor [⟨some "fr", some "red", "texte"⟩] = "" :=
  (bestEnglishFlavor_meets_spec [⟨some "fr", some "red", "texte"⟩]).2 (by decide)

/-! ## Claim C7 -/

/-- Counterexample to claim C7 as stated: the code lowercases only the query,
not the name, so a name containing an uppercase letter is not matched
case-insensitively.  With the single item named `"Mew"` (id 151), the
non-empty query `"MEW"` matches the name case-insensitively, yet `filterList`
returns the empty list. -/
theorem filterList_not_case_insensitive :
    filterList [⟨151, "Mew"⟩] "MEW" .all [] = [] ∧
      caseInsensitiveMatch "Mew" "MEW" = true ∧ ("MEW" : String) ≠ "" := by
  decide

/-- Claim C7, amended: `filterList` returns exactly the items passing both
predicates, in input order, where an item passes the query predicate iff the
effective query (trimmed and lowercased) is empty, or is a substring of the
item's name taken verbatim, or of its index written as a decimal string; the
mode predicate is as claimed.  For items whose name is already lowercase (as
all catalog names are), the verbatim name test coincides with
case-insensitive matching. -/
theorem filterList_characterization (items : List ListItem) (q : String) (mode : FilterMode)
    (cs : List Nat) :
    filterList items q mode cs =
        items.filter (fun p => decide (queryPasses q p) && decide (modePasses mode cs p)) ∧
      (filterList items q mode cs).Sublist items ∧
      (∀ p : ListItem, jsToLower p.name = p.name →
        strIncludes p.name (jsToLower (jsTrim q)) = caseInsensitiveMatch p.name (jsTrim q)) := by
  refine ⟨?_, ?_, ?_⟩
  · unfold filterList
    rw [List.filter_filter]
    apply List.filter_congr
    intro p _
    by_cases hq : jsToLower (jsTrim q) = ""
    · simp [hq, queryPasses, modePasses]
      cases mode <;> simp [modePasses]
    · cases mode <;> simp [hq, queryPasses, modePasses, Bool.and_comm]
  · unfold filterList
    exact (List.filter_sublist _).trans (List.filter_sublist _)
  · intro p h
    unfold caseInsensitiveMatch
    rw [h]

/-- Witness for C7 at the lowercase name `"mew"` and query `"MEW"`. -/
theorem filterList_characterization_witness :
    strIncludes "mew" (jsToLower (jsTrim "MEW")) = caseInsensitiveMatch "mew" (jsTrim "MEW") :=
  (filterList_characterization [⟨151, "mew"⟩] "MEW" .all []).2.2 ⟨151, "mew"⟩ (by decide)

/-! ## Comparator facts and stable-sort lemmas (for C1 and C8) -/

theorem charListLe_total : ∀ xs ys : List Char, charListLe xs ys = true ∨ charListLe ys xs = true := by
  intro xs
  induction xs with
  | nil => intro ys; left; rfl
  | cons a as ih =>
    intro ys
    cases ys with
    | nil => right; rfl
    | cons b bs =>
      by_cases hab : a = b
      · subst hab
        simp only [charListLe, if_pos rfl]
        exact ih bs
      · have hne : b ≠ a := fun h => hab h.symm
        simp only [charListLe, if_neg hab, if_neg hne, decide_eq_true_eq]
        exact lt_or_gt_of_ne hab

theorem charListLe_trans :
    ∀ xs ys zs : List Char, charListLe xs ys = true → charListLe ys zs = true →
      charListLe xs zs = true := by
  intro xs
  induction xs with
  | nil => intro ys zs _ _; rfl
  | cons a as ih =>
    intro ys zs h1 h2
    cases ys with
    | nil => simp [charListLe] at h1
    | cons b bs =>
      cases zs with
      | nil => simp [charListLe] at h2
      | cons c cs =>
        by_cases hab : a = b <;> by_cases hbc : b = c
        · subst hab; subst hbc
          simp only [charListLe, if_pos rfl] at h1 h2 ⊢
          exact ih bs cs h1 h2
        · subst hab
          simp only [charListLe, if_pos rfl] at h1
          simp only [charListLe, if_neg hbc, decide_eq_true_eq] at h2
          have hac : a < c := h2
          simp [charListLe, ne_of_lt hac, hac]
        · subst hbc
          simp only [charListLe, if_neg hab, decide_eq_true_eq] at h1
          simp [charListLe, hab, h1]
        · simp only [charListLe, if_neg hab, decide_eq_true_eq] at h1
          simp only [charListLe, if_neg hbc, decide_eq_true_eq] at h2
          have hac : a < c := lt_trans h1 h2
          simp [charListLe, ne_of_lt hac, hac]

theorem charListLe_antisymm :
    ∀ xs ys : List Char, charListLe xs ys = true → charListLe ys xs = true → xs = ys := by
  intro xs
  induction xs with
  | nil =>
    intro ys _ h2
    cases ys with
    | nil => rfl
    | cons b bs => simp [charListLe] at h2
  | cons a as ih =>
    intro ys h1 h2
    cases ys with
    | nil => simp [charListLe] at h1
    | cons b bs =>
      by_cases hab : a = b
      · subst hab
        simp only [charListLe, if_pos rfl] at h1 h2
        rw [ih bs h1 h2]
      · have hne : b ≠ a := fun h => hab h.symm
        simp only [charListLe, if_neg hab, decide_eq_true_eq] at h1
        simp only [charListLe, if_neg hne, decide_eq_true_eq] at h2
        exact absurd h2 (not_lt_of_gt h1)

theorem strLe_total (a b : String) : strLe a b = true ∨ strLe b a = true :=
  charListLe_total a.data b.data

theorem strLe_trans {a b c : String} (h1 : strLe a b = true) (h2 : strLe b c = true) :
    strLe a c = true :=
  charListLe_trans a.data b.data c.data h1 h2

theorem strLe_antisymm {a b : String} (h1 : strLe a b = true) (h2 : strLe b a = true) : a = b := by
  have := charListLe_antisymm a.data b.data h1 h2
  cases a with
  | mk da =>
    cases b with
    | mk db => exact congrArg String.mk this

theorem verLe_total (a b : String) : verLe a b = true ∨ verLe b a = true :=
  strLe_total (versionLabel a) (versionLabel b)

theorem verLe_trans {a b c : String} (h1 : verLe a b = true) (h2 : verLe b c = true) :
    verLe a c = true :=
  strLe_trans h1 h2

theorem insertLe_perm (le : α → α → Bool) (a : α) (l : List α) :
    (insertLe le a l).Perm (a :: l) := by
  induction l with
  | nil => exact List.Perm.refl _
  | cons b bs ih =>
    cases h : le a b
    · simp only [insertLe, h, Bool.false_eq_true, if_false]
      exact (ih.cons b).trans (List.Perm.swap a b bs)
    · simp only [insertLe, h, if_true]
      exact List.Perm.refl _

theorem sortLe_perm (le : α → α → Bool) (l : List α) : (sortLe le l).Perm l := by
  induction l with
  | nil => exact List.Perm.refl _
  | cons a as ih =>
    exact (insertLe_perm le a (sortLe le as)).trans (ih.cons a)

theorem insertLe_sorted (le : α → α → Bool)
    (htot : ∀ x y, le x y = true ∨ le y x = true)
    (htrans : ∀ x y z, le x y = true → le y z = true → le x z = true)
    (a : α) (l : List α) (hl : List.Pairwise (fun x y => le x y = true) l) :
    List.Pairwise (fun x y => le x y = true) (insertLe le a l) := by
  induction l with
  | nil => simp [insertLe]
  | cons b bs ih =>
    obtain ⟨hb, hbs⟩ := List.pairwise_cons.mp hl
    cases h : le a b
    · have hba : le b a = true := by
        rcases htot a b with hh | hh
        · rw [h] at hh; cases hh
        · exact hh
      simp only [insertLe, h, Bool.false_eq_true, if_false]
      refine List.pairwise_cons.mpr ⟨?_, ih hbs⟩
      intro x hx
      rcases List.mem_cons.mp ((insertLe_perm le a bs).subset hx) with hh | hh
      · rw [hh]; exact hba
      · exact hb x hh
    · simp only [insertLe, h, if_true]
      refine List.pairwise_cons.mpr ⟨?_, hl⟩
      intro x hx
      rcases List.mem_cons.mp hx with hh | hh
      · rw [hh]; exact h
      · exact htrans a b x h (hb x hh)

theorem sortLe_sorted (le : α → α → Bool)
    (htot : ∀ x y, le x y = true ∨ le y x = true)
    (htrans : ∀ x y z, le x y = true → le y z = true → le x z = true)
    (l : List α) : List.Pairwise (fun x y => le x y = true) (sortLe le l) := by
  induction l with
  | nil => simp [sortLe]
  | cons a as ih => exact insertLe_sorted le htot htrans a (sortLe le as) ih

theorem sorted_perm_eq (le : α → α → Bool) :
    ∀ l₁ l₂ : List α, l₁.Perm l₂ →
      List.Pairwise (fun x y => le x y = true) l₁ →
      List.Pairwise (fun x y => le x y = true) l₂ →
      (∀ x ∈ l₁, ∀ y ∈ l₁, le x y = true → le y x = true → x = y) →
      l₁ = l₂ := by
  intro l₁
  induction l₁ with
  | nil =>
    intro l₂ hp _ _ _
    exact (hp.symm.eq_nil).symm
  | cons a t₁ ih =>
    intro l₂ hp hs₁ hs₂ hanti
    cases l₂ with
    | nil => exact absurd hp.eq_nil (by simp)
    | cons b t₂ =>
      have hab : a = b := by
        have ha₂ : a ∈ b :: t₂ := hp.subset (List.mem_cons_self a t₁)
        have hb₁ : b ∈ a :: t₁ := hp.symm.subset (List.mem_cons_self b t₂)
        rcases List.mem_cons.mp ha₂ with hh | hh
        · exact hh
        rcases List.mem_cons.mp hb₁ with hh' | hh'
        · exact hh'.symm
        exact hanti a (List.mem_cons_self a t₁) b hb₁
          (List.rel_of_pairwise_cons hs₁ hh') (List.rel_of_pairwise_cons hs₂ hh)
      subst hab
      have ht : t₁ = t₂ :=
        ih t₂ hp.cons_inv hs₁.of_cons hs₂.of_cons
          (fun x hx y hy => hanti x (List.mem_cons_of_mem a hx) y (List.mem_cons_of_mem a hy))
      rw [ht]

/-! ## Association-list lemmas for `byVersion` (for C1 and C8) -/

theorem addLoc_fst_mem (m : List (String × List String)) (v l k : String) :
    k ∈ (addLoc m v l).map Prod.fst ↔ k ∈ m.map Prod.fst ∨ k = v := by
  induction m with
  | nil => simp [addLoc]
  | cons hd tl ih =>
    obtain ⟨kk, locs⟩ := hd
    by_cases h : kk = v
    · subst h
      have hstep : addLoc ((kk, locs) :: tl) kk l =
          (kk, if l ∈ locs then locs else locs ++ [l]) :: tl := by
        simp [addLoc]
      rw [hstep]
      simp only [List.map_cons, List.mem_cons]
      tauto
    · simp only [addLoc, if_neg h, List.map_cons, List.mem_cons, ih]
      tauto

theorem addLoc_fst_nodup (m : List (String × List String)) (v l : String)
    (h : (m.map Prod.fst).Nodup) : ((addLoc m v l).map Prod.fst).Nodup := by
  induction m with
  | nil => simp [addLoc]
  | cons hd tl ih =>
    obtain ⟨kk, locs⟩ := hd
    simp only [List.map_cons, List.nodup_cons] at h
    by_cases hkv : kk = v
    · subst hkv
      simpa [addLoc] using h
    · simp only [addLoc, if_neg hkv, List.map_cons, List.nodup_cons]
      refine ⟨?_, ih h.2⟩
      rw [addLoc_fst_mem]
      rintro (hh | hh)
      · exact h.1 hh
      · exact hkv hh

theorem lookupLocs_addLoc_same (m : List (String × List String)) (v l : String) :
    lookupLocs v (addLoc m v l) =
      if l ∈ lookupLocs v m then lookupLocs v m else lookupLocs v m ++ [l] := by
  induction m with
  | nil => simp [addLoc, lookupLocs]
  | cons hd tl ih =>
    obtain ⟨kk, locs⟩ := hd
    by_cases hkv : kk = v
    · subst hkv
      simp [addLoc, lookupLocs]
    · simp only [addLoc, if_neg hkv, lookupLocs, if_neg hkv, ih]

theorem lookupLocs_addLoc_other (m : List (String × List String)) (v l k : String)
    (h : k ≠ v) : lookupLocs k (addLoc m v l) = lookupLocs k m := by
  induction m with
  | nil =>
    have h' : v ≠ k := fun hh => h hh.symm
    simp [addLoc, lookupLocs, h']
  | cons hd tl ih =>
    obtain ⟨kk, locs⟩ := hd
    by_cases hkv : kk = v
    · subst hkv
      have h' : kk ≠ k := fun hh => h hh.symm
      simp [addLoc, lookupLocs, h']
    · by_cases hkk : kk = k
      · subst hkk
        simp [addLoc, lookupLocs, hkv]
      · simp [addLoc, lookupLocs, hkv, hkk, ih]

theorem lookupLocs_addLoc_mem (m : List (String × List String)) (v l k x : String) :
    x ∈ lookupLocs k (addLoc m v l) ↔ x ∈ lookupLocs k m ∨ (k = v ∧ x = l) := by
  by_cases hkv : k = v
  · subst hkv
    rw [lookupLocs_addLoc_same]
    by_cases hl : l ∈ lookupLocs k m
    · simp only [if_pos hl, true_and]
      constructor
      · exact Or.inl
      · rintro (hh | hh)
        · exact hh
        · exact hh ▸ hl
    · simp [if_neg hl, List.mem_append]
  · rw [lookupLocs_addLoc_other m v l k hkv]
    simp [hkv]

theorem lookupLocs_addLoc_nodup (m : List (String × List String)) (v l : String)
    (h : ∀ k, (lookupLocs k m).Nodup) : ∀ k, (lookupLocs k (addLoc m v l)).Nodup := by
  intro k
  by_cases hkv : k = v
  · subst hkv
    rw [lookupLocs_addLoc_same]
    by_cases hl : l ∈ lookupLocs k m
    · simpa [if_pos hl] using h k
    · simp [if_neg hl, List.nodup_append, h k, hl]
  · rw [lookupLocs_addLoc_other m v l k hkv]
    exact h k

theorem buildFrom_cons (acc : List (String × List String)) (p : String × String)
    (ps : List (String × String)) : buildFrom acc (p :: ps) = buildFrom (addLoc acc p.1 p.2) ps :=
  rfl

theorem buildFrom_append (acc : List (String × List String)) (ps qs : List (String × String)) :
    buildFrom acc (ps ++ qs) = buildFrom (buildFrom acc ps) qs := by
  unfold buildFrom
  rw [List.foldl_append]

theorem buildFrom_fst_mem :
    ∀ (ps : List (String × String)) (acc : List (String × List String)) (k : String),
      k ∈ (buildFrom acc ps).map Prod.fst ↔ k ∈ acc.map Prod.fst ∨ k ∈ ps.map Prod.fst := by
  intro ps
  induction ps with
  | nil => simp [buildFrom]
  | cons p ps ih =>
    intro acc k
    obtain ⟨v, l⟩ := p
    rw [buildFrom_cons, ih, addLoc_fst_mem]
    simp only [List.map_cons, List.mem_cons]
    tauto

theorem buildFrom_fst_nodup :
    ∀ (ps : List (String × String)) (acc : List (String × List String)),
      (acc.map Prod.fst).Nodup → ((buildFrom acc ps).map Prod.fst).Nodup := by
  intro ps
  induction ps with
  | nil => exact fun acc h => h
  | cons p ps ih =>
    intro acc h
    obtain ⟨v, l⟩ := p
    rw [buildFrom_cons]
    exact ih _ (addLoc_fst_nodup acc v l h)

theorem buildFrom_lookup_mem :
    ∀ (ps : List (String × String)) (acc : List (String × List String)) (k x : String),
      x ∈ lookupLocs k (buildFrom acc ps) ↔ x ∈ lookupLocs k acc ∨ (k, x) ∈ ps := by
  intro ps
  induction ps with
  | nil => simp [buildFrom]
  | cons p ps ih =>
    intro acc k x
    obtain ⟨v, l⟩ := p
    rw [buildFrom_cons, ih, lookupLocs_addLoc_mem]
    simp only [List.mem_cons, Prod.mk.injEq]
    tauto

theorem buildFrom_lookup_nodup :
    ∀ (ps : List (String × String)) (acc : List (String × List String)),
      (∀ k, (lookupLocs k acc).Nodup) → ∀ k, (lookupLocs k (buildFrom acc ps)).Nodup := by
  intro ps
  induction ps with
  | nil => exact fun acc h => h
  | cons p ps ih =>
    intro acc h
    obtain ⟨v, l⟩ := p
    rw [buildFrom_cons]
    exact ih _ (lookupLocs_addLoc_nodup acc v l h)

theorem stepRow_eq (row : EncounterRow) : ∀ m, stepRow m row = buildFrom m (rowPairs row) := by
  have key : ∀ (oloc : Option String) (vds : List VersionDetail)
      (m : List (String × List String)),
      (vds.foldl
          (fun m2 vd =>
            match vd.version, oloc with
            | some v, some l => if v = "" || l = "" then m2 else addLoc m2 v l
            | _, _ => m2) m)
        = buildFrom m (vds.filterMap
            (fun vd =>
              match vd.version, oloc with
              | some v, some l => if v = "" || l = "" then none else some (v, l)
              | _, _ => none)) := by
    intro oloc
    cases oloc with
    | none =>
      intro vds
      induction vds with
      | nil => intro m; rfl
      | cons vd vds ih =>
        intro m
        rw [List.foldl_cons, List.filterMap_cons]
        obtain ⟨ov⟩ := vd
        cases ov with
        | none => exact ih m
        | some v => exact ih m
    | some l =>
      intro vds
      induction vds with
      | nil => intro m; rfl
      | cons vd vds ih =>
        intro m
        rw [List.foldl_cons, List.filterMap_cons]
        obtain ⟨ov⟩ := vd
        cases ov with
        | none => exact ih m
        | some v =>
          by_cases hv0 : v = ""
          · simpa [hv0] using ih m
          · by_cases hl0 : l = ""
            · simpa [hv0, hl0] using ih m
            · simpa [hv0, hl0, buildFrom_cons] using ih (addLoc m v l)
  intro m
  exact key row.location_area row.version_details m

theorem buildByVersion_eq (rows : List EncounterRow) :
    buildByVersion rows = buildFrom [] (pairsOf rows) := by
  have key : ∀ (rows : List EncounterRow) (acc : List (String × List String)),
      rows.foldl stepRow acc = buildFrom acc (pairsOf rows) := by
    intro rows
    induction rows with
    | nil => intro acc; rfl
    | cons r rs ih =>
      intro acc
      rw [List.foldl_cons, stepRow_eq r acc, ih]
      rw [show pairsOf (r :: rs) = rowPairs r ++ pairsOf rs from List.flatMap_cons r rs rowPairs]
      rw [buildFrom_append]
  exact key rows []

/-! ## Claim C2 -/

theorem panelInv_init (id0 : Nat) : panelInv (panelInit id0) := by
  refine ⟨?_, ?_, ?_⟩
  · intro p hp
    simp only [panelInit, List.mem_singleton] at hp
    simp [hp, panelInit]
  · intro p hp _
    simp only [panelInit, List.mem_singleton] at hp
    simp [hp, panelInit]
  · intro i m hm
    simp [panelInit] at hm

theorem panelInv_step (s : PanelState) (ev : PanelEvent) (h : panelInv s) :
    panelInv (panelStep s ev) := by
  obtain ⟨h1, h2, h3⟩ := h
  cases ev with
  | select id =>
    by_cases hid : id = s.currentId
    · simpa [panelStep, hid] using ⟨h1, h2, h3⟩
    · simp only [panelStep, if_neg hid]
      refine ⟨?_, ?_, ?_⟩
      · intro p hp
        rcases List.mem_cons.mp hp with hh | hh
        · simp [hh]
        · exact Nat.le_trans (h1 p hh) (Nat.le_succ _)
      · intro p hp he
        rcases List.mem_cons.mp hp with hh | hh
        · simp [hh]
        · exact absurd he (Nat.ne_of_lt (Nat.lt_succ_of_le (h1 p hh)))
      · intro i m hm
        simp at hm
  | encResolve e id rows =>
    by_cases hp : (e, id) ∈ s.pending
    · simp only [panelStep, if_pos hp]
      refine ⟨?_, ?_, ?_⟩
      · intro p hpe
        exact h1 p (List.mem_of_mem_erase hpe)
      · intro p hpe he
        exact h2 p (List.mem_of_mem_erase hpe) he
      · intro i m hm
        by_cases he : e = s.epoch
        · rw [if_pos he] at hm
          obtain ⟨hi, -⟩ := Prod.mk.injEq .. ▸ Option.some.injEq .. ▸ hm
          exact hi ▸ h2 (e, id) hp he
        · rw [if_neg he] at hm
          exact h3 i m hm
    · simpa [panelStep, hp] using ⟨h1, h2, h3⟩
  | encFail e id =>
    by_cases hp : (e, id) ∈ s.pending
    · simp only [panelStep, if_pos hp]
      refine ⟨?_, ?_, ?_⟩
      · intro p hpe
        exact h1 p (List.mem_of_mem_erase hpe)
      · intro p hpe he
        exact h2 p (List.mem_of_mem_erase hpe) he
      · intro i m hm
        by_cases he : e = s.epoch
        · rw [if_pos he] at hm
          obtain ⟨hi, -⟩ := Prod.mk.injEq .. ▸ Option.some.injEq .. ▸ hm
          exact hi ▸ h2 (e, id) hp he
        · rw [if_neg he] at hm
          exact h3 i m hm
    · simpa [panelStep, hp] using ⟨h1, h2, h3⟩

theorem panelInv_foldl :
    ∀ (evs : List PanelEvent) (s : PanelState), panelInv s → panelInv (evs.foldl panelStep s) := by
  intro evs
  induction evs with
  | nil => exact fun s h => h
  | cons e es ih => exact fun s h => ih _ (panelInv_step s e h)

/-- Claim C2: in every interleaving, a stale encounter result (one whose
effect run is no longer the live one) is discarded, so the displayed
encounter map always corresponds to the currently selected species: whenever
the panel displays a map, the species it was computed for is the current
one. -/
theorem panel_displayed_matches_selection (id0 : Nat) (evs : List PanelEvent) (i : Nat)
    (m : EncounterMap) (h : (panelRun id0 evs).displayed = some (i, m)) :
    i = (panelRun id0 evs).currentId :=
  (panelInv_foldl evs (panelInit id0) (panelInv_init id0)).2.2 i m h

/-- Witness for C2 on the claim's own scenario: species 1 is shown initially,
the user selects 2 and then 1 again before 2's encounter fetch resolves; the
late result tagged for 2 (epoch 1) is dropped, and when the re-issued fetch
for 1 (epoch 2) resolves, the displayed map is the one computed for the
currently selected species 1. -/
theorem panel_displayed_matches_selection_witness :
    (panelRun 1 [.select 2, .select 1,
        .encResolve 1 2 [⟨some "a", [⟨some "red"⟩]⟩],
        .encResolve 2 1 []]).displayed = some (1, ⟨[], []⟩) ∧
      1 = (panelRun 1 [.select 2, .select 1,
        .encResolve 1 2 [⟨some "a", [⟨some "red"⟩]⟩],
        .encResolve 2 1 []]).currentId :=
  ⟨by decide,
    panel_displayed_matches_selection 1
      [.select 2, .select 1, .encResolve 1 2 [⟨some "a", [⟨some "red"⟩]⟩], .encResolve 2 1 []]
      1 ⟨[], []⟩ (by decide)⟩

/-! ## Claim C9 -/

/-- Counterexample to claim C9 as stated: with stubs 1 and 2 loaded and stub 1
selected (its detail fetch goes out in epoch 1), the user selects position 1
(species 2) before the fetch resolves; when the fetch for the record at its
original position 0 then resolves with `types = ["grass"]`, the claim says the
record at position 0 is enriched — but the code's `if (!alive) return` guard
drops the stale result and the record still has no `types`. -/
theorem stale_detail_not_applied :
    (appRun [⟨1, "bulbasaur", none⟩, ⟨2, "ivysaur", none⟩]
        [.select 1, .detailResolve 1 0 1 ["grass"]]).items =
      [⟨1, "bulbasaur", none⟩, ⟨2, "ivysaur", none⟩] := by
  decide

/-- Claim C9, amended: a detail fetch whose effect run has been cleaned up
(its epoch is no longer current — in particular because the selection changed
after it was issued) is discarded when it resolves: no record is enriched by
it.  Changing the selection always invalidates the live epoch. -/
theorem stale_detail_discarded (s : AppState) :
    (∀ e idx id ts, e ≠ s.epoch → (appStep s (.detailResolve e idx id ts)).items = s.items) ∧
      (∀ i, i ≠ s.selectedIndex → s.epoch < (appStep s (.select i)).epoch) := by
  constructor
  · intro e idx id ts he
    simp only [appStep]
    by_cases hp : (e, idx, id) ∈ s.pending
    · rw [if_pos hp, if_neg he]
    · rw [if_neg hp]
  · intro i hi
    simp only [appStep]
    rw [if_neg hi]
    unfold runDetailEffect
    rcases hr : ({ s with selectedIndex := i } : AppState).items.get?
        ({ s with selectedIndex := i } : AppState).selectedIndex with - | r
    · simp [hr]
    · by_cases ht : r.types = none <;> simp [hr, ht]

/-- Witness for C9's amended claim, at the state reached after loading a
single stub (epoch 1, detail fetch for it pending): a resolution carrying the
dead epoch 0 changes no record, and selecting another position bumps the
epoch. -/
theorem stale_detail_discarded_witness :
    (appStep (appInit [⟨1, "bulbasaur", none⟩]) (.detailResolve 0 0 1 ["grass"])).items =
        (appInit [⟨1, "bulbasaur", none⟩]).items ∧
      (appInit [⟨1, "bulbasaur", none⟩]).epoch <
        (appStep (appInit [⟨1, "bulbasaur", none⟩]) (.select 1)).epoch :=
  ⟨(stale_detail_discarded (appInit [⟨1, "bulbasaur", none⟩])).1 0 0 1 ["grass"] (by decide),
    (stale_detail_discarded (appInit [⟨1, "bulbasaur", none⟩])).2 1 (by decide)⟩

/-! ## Claim C8 -/

/-- Claim C8: for every input row sequence, `normalizeEncounterData` groups
the rows by version name — the versions sequence is sorted by display label
(`verLe` compares `versionLabel`s), the `byVersion` keys are exactly the
versions sequence, each version's location list is lexicographically sorted
by raw name and duplicate-free, and a location appears under a version iff
some input row contributes that `(version, location)` pair. -/
theorem normalize_groups_sorted_dedup (rows : List EncounterRow) :
    List.Pairwise (fun a b => verLe a b = true) (normalizeEncounterData rows).versions ∧
      (normalizeEncounterData rows).byVersion.map Prod.fst =
        (normalizeEncounterData rows).versions ∧
      (∀ v locs, (v, locs) ∈ (normalizeEncounterData rows).byVersion →
        List.Pairwise (fun a b => locLe a b = true) locs ∧ locs.Nodup) ∧
      (∀ v l, (∃ locs, (v, locs) ∈ (normalizeEncounterData rows).byVersion ∧ l ∈ locs) ↔
        (v, l) ∈ pairsOf rows) := by
  have hv : (normalizeEncounterData rows).versions =
      sortLe verLe ((buildFrom [] (pairsOf rows)).map Prod.fst) := by
    rw [show (normalizeEncounterData rows).versions =
        sortLe verLe ((buildByVersion rows).map Prod.fst) from rfl, buildByVersion_eq]
  have hbv : (normalizeEncounterData rows).byVersion =
      (sortLe verLe ((buildFrom [] (pairsOf rows)).map Prod.fst)).map
        (fun v => (v, sortLe locLe (lookupLocs v (buildFrom [] (pairsOf rows))))) := by
    rw [show (normalizeEncounterData rows).byVersion =
        (sortLe verLe ((buildByVersion rows).map Prod.fst)).map
          (fun v => (v, sortLe locLe (lookupLocs v (buildByVersion rows)))) from rfl,
      buildByVersion_eq]
  have hlooknd : ∀ k, (lookupLocs k (buildFrom [] (pairsOf rows))).Nodup :=
    buildFrom_lookup_nodup (pairsOf rows) [] (fun k => by simp [lookupLocs])
  refine ⟨?_, ?_, ?_, ?_⟩
  · rw [hv]
    exact sortLe_sorted verLe verLe_total (fun x y z h1 h2 => verLe_trans h1 h2) _
  · rw [hbv, hv, List.map_map]
    exact List.map_id _
  · intro v locs hmem
    rw [hbv] at hmem
    obtain ⟨v', hv', heq⟩ := List.mem_map.mp hmem
    injection heq with h1 h2
    subst h1
    refine ⟨?_, ?_⟩
    · rw [← h2]
      exact sortLe_sorted locLe (fun x y => strLe_total x y)
        (fun x y z hxy hyz => strLe_trans hxy hyz) _
    · rw [← h2]
      exact ((sortLe_perm locLe _).nodup_iff).mpr (hlooknd v')
  · intro v l
    constructor
    · rintro ⟨locs, hmem, hl⟩
      rw [hbv] at hmem
      obtain ⟨v', hv', heq⟩ := List.mem_map.mp hmem
      injection heq with h1 h2
      subst h1
      rw [← h2] at hl
      have hl' := ((sortLe_perm locLe _).mem_iff).mp hl
      rcases (buildFrom_lookup_mem (pairsOf rows) [] v' l).mp hl' with hh | hh
      · simp [lookupLocs] at hh
      · exact hh
    · intro hpl
      have hk : v ∈ (buildFrom [] (pairsOf rows)).map Prod.fst := by
        rw [buildFrom_fst_mem]
        exact Or.inr (List.mem_map_of_mem Prod.fst hpl)
      have hkV : v ∈ sortLe verLe ((buildFrom [] (pairsOf rows)).map Prod.fst) :=
        ((sortLe_perm verLe _).mem_iff).mpr hk
      refine ⟨sortLe locLe (lookupLocs v (buildFrom [] (pairsOf rows))), ?_, ?_⟩
      · rw [hbv]
        exact List.mem_map_of_mem _ hkV
      · exact ((sortLe_perm locLe _).mem_iff).mpr
          ((buildFrom_lookup_mem (pairsOf rows) [] v l).mpr (Or.inr hpl))

/-- Witness for C8: the single-row input with location `"a"` in version
`"red"` produces the `byVersion` entry `("red", ["a"])`, whose location list
is sorted and duplicate-free. -/
theorem normalize_groups_sorted_dedup_witness :
    (("red", ["a"]) ∈ (normalizeEncounterData [⟨some "a", [⟨some "red"⟩]⟩]).byVersion) ∧
      (List.Pairwise (fun a b => locLe a b = true) ["a"] ∧ (["a"] : List String).Nodup) :=
  ⟨by decide,
    (normalize_groups_sorted_dedup [⟨some "a", [⟨some "red"⟩]⟩]).2.2.1 "red" ["a"] (by decide)⟩

/-! ## Claim C1 -/

/-- Counterexample to claim C1 as stated: the version names `"red"` (curated
label `"Red"`) and `"red_"` (title-cased to `"Red"`) have equal display
labels, so the label comparator ties and the stable sort keeps them in
insertion order, which depends on the row order.  Swapping the two rows
permutes the input but changes the `versions` sequence of the result, so the
two `EncounterMap`s are not identical. -/
theorem normalize_not_order_independent :
    ([⟨some "a", [⟨some "red"⟩]⟩, ⟨some "a", [⟨some "red_"⟩]⟩] : List EncounterRow).Perm
        [⟨some "a", [⟨some "red_"⟩]⟩, ⟨some "a", [⟨some "red"⟩]⟩] ∧
      normalizeEncounterData [⟨some "a", [⟨some "red"⟩]⟩, ⟨some "a", [⟨some "red_"⟩]⟩] ≠
        normalizeEncounterData [⟨some "a", [⟨some "red_"⟩]⟩, ⟨some "a", [⟨some "red"⟩]⟩] := by
  decide

/-- Claim C1, amended: `normalizeEncounterData` is order-independent whenever
distinct version names occurring in the input have distinct display labels
(the tie case exhibited by the counterexample is the only obstruction): for
every permutation of the rows the resulting `EncounterMap` is identical. -/
theorem normalize_order_independent_of_labels_inj (rows1 rows2 : List EncounterRow)
    (hperm : rows1.Perm rows2)
    (hinj : ∀ x ∈ versionNamesOf rows1, ∀ y ∈ versionNamesOf rows1,
      versionLabel x = versionLabel y → x = y) :
    normalizeEncounterData rows1 = normalizeEncounterData rows2 := by
  have hp : (pairsOf rows1).Perm (pairsOf rows2) := List.Perm.flatMap_right rowPairs hperm
  have hnd1 : ((buildFrom [] (pairsOf rows1)).map Prod.fst).Nodup :=
    buildFrom_fst_nodup (pairsOf rows1) [] (by simp)
  have hnd2 : ((buildFrom [] (pairsOf rows2)).map Prod.fst).Nodup :=
    buildFrom_fst_nodup (pairsOf rows2) [] (by simp)
  have hmemk : ∀ k, k ∈ (buildFrom [] (pairsOf rows1)).map Prod.fst ↔
      k ∈ (buildFrom [] (pairsOf rows2)).map Prod.fst := by
    intro k
    rw [buildFrom_fst_mem, buildFrom_fst_mem]
    simp only [List.map_nil, List.not_mem_nil, false_or]
    exact (hp.map Prod.fst).mem_iff
  have hkperm := (List.perm_ext_iff_of_nodup hnd1 hnd2).mpr hmemk
  have hVperm : (sortLe verLe ((buildFrom [] (pairsOf rows1)).map Prod.fst)).Perm
      (sortLe verLe ((buildFrom [] (pairsOf rows2)).map Prod.fst)) :=
    ((sortLe_perm verLe _).trans hkperm).trans (sortLe_perm verLe _).symm
  have hnames : ∀ x ∈ sortLe verLe ((buildFrom [] (pairsOf rows1)).map Prod.fst),
      x ∈ versionNamesOf rows1 := by
    intro x hx
    have hx1 : x ∈ (buildFrom [] (pairsOf rows1)).map Prod.fst :=
      ((sortLe_perm verLe _).mem_iff).mp hx
    rcases (buildFrom_fst_mem (pairsOf rows1) [] x).mp hx1 with hh | hh
    · simp at hh
    · exact hh
  have hV : sortLe verLe ((buildFrom [] (pairsOf rows1)).map Prod.fst) =
      sortLe verLe ((buildFrom [] (pairsOf rows2)).map Prod.fst) :=
    sorted_perm_eq verLe _ _ hVperm
      (sortLe_sorted verLe verLe_total (fun x y z h1 h2 => verLe_trans h1 h2) _)
      (sortLe_sorted verLe verLe_total (fun x y z h1 h2 => verLe_trans h1 h2) _)
      (fun x hx y hy hxy hyx =>
        hinj x (hnames x hx) y (hnames y hy) (strLe_antisymm hxy hyx))
  have hlook : ∀ v, sortLe locLe (lookupLocs v (buildFrom [] (pairsOf rows1))) =
      sortLe locLe (lookupLocs v (buildFrom [] (pairsOf rows2))) := by
    intro v
    have hn1 : (lookupLocs v (buildFrom [] (pairsOf rows1))).Nodup :=
      buildFrom_lookup_nodup (pairsOf rows1) [] (fun k => by simp [lookupLocs]) v
    have hn2 : (lookupLocs v (buildFrom [] (pairsOf rows2))).Nodup :=
      buildFrom_lookup_nodup (pairsOf rows2) [] (fun k => by simp [lookupLocs]) v
    have hmm : ∀ x, x ∈ lookupLocs v (buildFrom [] (pairsOf rows1)) ↔
        x ∈ lookupLocs v (buildFrom [] (pairsOf rows2)) := by
      intro x
      rw [buildFrom_lookup_mem, buildFrom_lookup_mem]
      simp only [lookupLocs, List.not_mem_nil, false_or]
      exact hp.mem_iff
    have hpl := (List.perm_ext_iff_of_nodup hn1 hn2).mpr hmm
    exact sorted_perm_eq locLe _ _
      (((sortLe_perm locLe _).trans hpl).trans (sortLe_perm locLe _).symm)
      (sortLe_sorted locLe (fun x y => strLe_total x y)
        (fun x y z h1 h2 => strLe_trans h1 h2) _)
      (sortLe_sorted locLe (fun x y => strLe_total x y)
        (fun x y z h1 h2 => strLe_trans h1 h2) _)
      (fun x _ y _ h1 h2 => strLe_antisymm h1 h2)
  have e1 : normalizeEncounterData rows1 =
      ⟨sortLe verLe ((buildFrom [] (pairsOf rows1)).map Prod.fst),
        (sortLe verLe ((buildFrom [] (pairsOf rows1)).map Prod.fst)).map
          (fun v => (v, sortLe locLe (lookupLocs v (buildFrom [] (pairsOf rows1)))))⟩ := by
    rw [show normalizeEncounterData rows1 =
        ⟨sortLe verLe ((buildByVersion rows1).map Prod.fst),
          (sortLe verLe ((buildByVersion rows1).map Prod.fst)).map
            (fun v => (v, sortLe locLe (lookupLocs v (buildByVersion rows1))))⟩ from rfl,
      buildByVersion_eq]
  have e2 : normalizeEncounterData rows2 =
      ⟨sortLe verLe ((buildFrom [] (pairsOf rows2)).map Prod.fst),
        (sortLe verLe ((buildFrom [] (pairsOf rows2)).map Prod.fst)).map
          (fun v => (v, sortLe locLe (lookupLocs v (buildFrom [] (pairsOf rows2)))))⟩ := by
    rw [show normalizeEncounterData rows2 =
        ⟨sortLe verLe ((buildByVersion rows2).map Prod.fst),
          (sortLe verLe ((buildByVersion rows2).map Prod.fst)).map
            (fun v => (v, sortLe locLe (lookupLocs v (buildByVersion rows2))))⟩ from rfl,
      buildByVersion_eq]
  rw [e1, e2, hV]
  congr 1
  exact List.map_congr_left (fun v _ => by rw [hlook v])

/-- Witness for C1's amended claim: two rows in versions `"red"` and `"blue"`
(distinct labels) normalize identically after swapping. -/
theorem normalize_order_independent_witness :
    ([⟨some "a", [⟨some "red"⟩]⟩, ⟨some "b", [⟨some "blue"⟩]⟩] : List EncounterRow).Perm
        [⟨some "b", [⟨some "blue"⟩]⟩, ⟨some "a", [⟨some "red"⟩]⟩] ∧
      normalizeEncounterData [⟨some "a", [⟨some "red"⟩]⟩, ⟨some "b", [⟨some "blue"⟩]⟩] =
        normalizeEncounterData [⟨some "b", [⟨some "blue"⟩]⟩, ⟨some "a", [⟨some "red"⟩]⟩] :=
  ⟨by decide,
    normalize_order_independent_of_labels_inj
      [⟨some "a", [⟨some "red"⟩]⟩, ⟨some "b", [⟨some "blue"⟩]⟩]
      [⟨some "b", [⟨some "blue"⟩]⟩, ⟨some "a", [⟨some "red"⟩]⟩]
      (by decide) (by decide)⟩

end LivingDex
